import Mathlib

/-!
Verification of the PanACoTA genome quality-control / annotation pipeline.

The development shallowly embeds the parts of the repository that the verified
properties are about:

* `PanACoTA/subcommands/annotate.py` (`main`): tool check, QC filter and the
  overall control flow, embedded directly from the source.
* `genomeAPCAT/align_module/post_align.py` (`get_genome`, `read_alignments`),
  embedded directly from the source.
* the genome sequence functions (`calc_l90`, `rename_all_genomes`, contig
  splitting), the prodigal output parser (`create_gene_lst`) and the per-genome
  formatter: their Python modules are not part of the source tree available here
  (only their unit tests are), so they are modelled from the specification, as
  stated in the doc comment of each such definition.

Machine integers do not occur: all quantities are genuine unbounded Python ints
(lengths, counts), embedded as `Nat`.  The fractional `0.9 * size` threshold is
embedded exactly as the integer comparison `9 * total ≤ 10 * cumulative`.
-/

namespace PanACoTA

/-- Per-genome information record, mirroring the positional list
`[spegenus.date, path_to_splitSequence, size, nbcont, l90]` stored as the values
of the `genomes` dict of `PanACoTA/subcommands/annotate.py` (comment at line 291). -/
structure GInfo where
  name : String
  path : String
  gsize : Nat
  nbcont : Nat
  l90 : Nat
deriving DecidableEq, Repr

/-- Quality filter of annotate.py lines 295-296:
`kept_genomes = {genome: info for genome, info in genomes.items()
                 if info[-2] <= nbcont and info[-1] <= l90}`
(`info[-2]` is the contig count, `info[-1]` the L90). -/
def keptGenomes (genomes : List (String × GInfo)) (nbcont l90 : Nat) :
    List (String × GInfo) :=
  genomes.filter (fun gi => decide (gi.2.nbcont ≤ nbcont ∧ gi.2.l90 ≤ l90))

/-- Discarded part of the QC partition: the genomes of the input dict that are not
kept (`utils.write_discarded` receives `genomes` plus the kept keys and reports the
rest, annotate.py line 298); their info records are passed through untouched. -/
def discardedGenomes (genomes : List (String × GInfo)) (nbcont l90 : Nat) :
    List (String × GInfo) :=
  genomes.filter (fun gi => !(decide (gi.2.nbcont ≤ nbcont ∧ gi.2.l90 ≤ l90)))

/-- Pipeline events of `main` (annotate.py lines 269-340), in the order the source
performs them. -/
inductive Event where
  | readGenomes
  | readInfo
  | analysed
  | filtered
  | renamed
  | wroteLst
  | annotated
  | formatted
deriving DecidableEq, Repr

/-- Abstract environment of one invocation of annotate.py `main`: the relevant flags,
the installation state reported by `utils.check_installed`, and the genome dict that
reading/analysing the list file would produce. -/
structure MainEnv where
  qc_only : Bool
  prodigal_only : Bool
  prokkaInstalled : Bool
  prodigalInstalled : Bool
  from_info : Bool
  genomes : List (String × GInfo)
  maxNbcont : Nat
  maxL90 : Nat
deriving Repr

/-- Shallow embedding of the control flow of `main` (annotate.py lines 210-341):

* lines 213-225: when not in QC-only mode, exit 1 if the required tool is absent
  (prokka unless `--prodigal`, prodigal with `--prodigal`), before anything else;
* lines 272-288: read the genome list (or the info file with `--info`); exit -1
  when no genome was found (line 280, only on the reading branch);
* lines 283-284: analyse all genomes (skipped on the `--info` branch);
* lines 293-298: QC filter and reports; line 300-303: QC-only mode returns here;
* lines 305-311: rename, write LSTINFO, annotate all kept genomes;
* lines 312-313: `import sys; sys.exit(1)` unconditionally — the formatting code of
  lines 314-340 is unreachable, so `Event.formatted` is never emitted.

The result is the ordered list of performed events plus `some code` when the run
ends in `sys.exit(code)` (`none` = normal return). -/
def mainModel (env : MainEnv) : List Event × Option Int :=
  if !env.qc_only && (!env.prodigal_only && !env.prokkaInstalled) then ([], some 1)
  else if !env.qc_only && (env.prodigal_only && !env.prodigalInstalled) then ([], some 1)
  else
    if env.from_info then
      let afterQC := [Event.readInfo, Event.filtered]
      if env.qc_only then (afterQC, none)
      else (afterQC ++ [Event.renamed, Event.wroteLst, Event.annotated], some 1)
    else
      if env.genomes.isEmpty then ([Event.readGenomes], some (-1))
      else
        let afterQC := [Event.readGenomes, Event.analysed, Event.filtered]
        if env.qc_only then (afterQC, none)
        else (afterQC ++ [Event.renamed, Event.wroteLst, Event.annotated], some 1)

/-- C4: for every genomes map and thresholds, the QC filter keeps a genome iff its
contig count and its L90 are within the bounds, both inclusive; the kept and the
discarded partitions both carry the genome's info record unchanged (membership with
the very same metrics), and together they are exactly the input dict. -/
theorem quality_filter_keeps_iff (genomes : List (String × GInfo)) (nbcont l90 : Nat)
    (g : String) (info : GInfo) :
    ((g, info) ∈ keptGenomes genomes nbcont l90 ↔
      (g, info) ∈ genomes ∧ info.nbcont ≤ nbcont ∧ info.l90 ≤ l90) ∧
    ((g, info) ∈ discardedGenomes genomes nbcont l90 ↔
      (g, info) ∈ genomes ∧ ¬(info.nbcont ≤ nbcont ∧ info.l90 ≤ l90)) := by
  constructor
  · simp [keptGenomes, List.mem_filter]
  · simp [discardedGenomes, List.mem_filter]
    intro _h
    omega

/-- C7: when the run is not QC-only and the required annotation tool is missing
(prokka by default, prodigal in `--prodigal` mode), `main` exits with status 1
(annotate.py lines 219 and 225) having performed no pipeline event: no genome is
read, analysed or annotated. -/
theorem toolcheck_aborts_before_work (env : MainEnv)
    (hqc : env.qc_only = false)
    (htool : (env.prodigal_only = false ∧ env.prokkaInstalled = false) ∨
             (env.prodigal_only = true ∧ env.prodigalInstalled = false)) :
    (mainModel env).1 = [] ∧ (mainModel env).2 = some 1 := by
  rcases htool with ⟨hp, hi⟩ | ⟨hp, hi⟩ <;> simp [mainModel, hqc, hp, hi]

/-- Witness for `toolcheck_aborts_before_work` at a concrete environment. -/
theorem toolcheck_aborts_before_work_witness :
    (mainModel ⟨false, false, false, true, false, [], 999, 100⟩).1 = [] ∧
    (mainModel ⟨false, false, false, true, false, [], 999, 100⟩).2 = some 1 :=
  toolcheck_aborts_before_work ⟨false, false, false, true, false, [], 999, 100⟩
    rfl (Or.inl ⟨rfl, rfl⟩)

/-- C1 (exhibit of the code bug): because of the stray `sys.exit(1)` at annotate.py
lines 312-313, the formatting step is unreachable — `Event.formatted` occurs in no
execution of `main` — and every run that reaches the annotation step terminates by
`sys.exit(1)` even when every genome was annotated successfully, instead of going
on to format the successfully annotated genomes. -/
theorem formatting_never_runs (env : MainEnv) :
    Event.formatted ∉ (mainModel env).1 ∧
    (Event.annotated ∈ (mainModel env).1 → (mainModel env).2 = some 1) := by
  unfold mainModel
  cases env.qc_only <;> cases env.prodigal_only <;> cases env.prokkaInstalled <;>
    cases env.prodigalInstalled <;> cases env.from_info <;>
    cases h : env.genomes.isEmpty <;> simp

/-- Witness for `formatting_never_runs`: a run with everything installed and one
perfectly healthy genome still exits 1 after annotation, without formatting. -/
theorem formatting_never_runs_witness :
    Event.formatted ∉
      (mainModel ⟨false, false, true, true, false,
        [("genome1.fasta", ⟨"ESCO.1116", "p1", 1000, 2, 1⟩)], 999, 100⟩).1 ∧
    (mainModel ⟨false, false, true, true, false,
        [("genome1.fasta", ⟨"ESCO.1116", "p1", 1000, 2, 1⟩)], 999, 100⟩).2 = some 1 :=
  ⟨(formatting_never_runs _).1, (formatting_never_runs _).2 (by decide)⟩

/-- Descending order on contig lengths, used by the L90 computation. -/
def geR (a b : Nat) : Prop := b ≤ a

instance : DecidableRel geR := fun a b => inferInstanceAs (Decidable (b ≤ a))

instance : IsTotal Nat geR := ⟨fun a b => (Nat.le_total a b).symm⟩

instance : IsTrans Nat geR := ⟨fun _ _ _ hab hbc => Nat.le_trans hbc hab⟩

/-- Contig lengths sorted in descending order. -/
def sortDesc (l : List Nat) : List Nat := List.insertionSort geR l

/-- Scanning loop of `calc_l90`: walk the descending lengths, accumulating, and
return the 1-based position at which the cumulative length first reaches the
90% threshold (`cum ≥ 0.9 * total`, embedded exactly as `9 * total ≤ 10 * cum`). -/
def l90Go (total : Nat) : Nat → Nat → List Nat → Nat
  | _, k, [] => k
  | acc, k, x :: rest =>
    if 9 * total ≤ 10 * (acc + x) then k + 1
    else l90Go total (acc + x) (k + 1) rest

/-- Modelled from the spec: `calc_l90` of
`PanACoTA/annotate_module/genome_seq_functions.py` is absent from the available
sources (only its unit tests, test_genome_func.py lines 21-38, are present).
Spec §4.1: sort contig lengths descending, accumulate until the cumulative length
reaches at least 0.9 of the genome size (comparison with ≥, not >), and return the
number of contigs accumulated. -/
def calc_l90 (sizes : List Nat) : Nat :=
  l90Go sizes.sum 0 0 (sortDesc sizes)

/-- Sum of the `k` largest contig lengths. -/
def sumTop (sizes : List Nat) (k : Nat) : Nat := ((sortDesc sizes).take k).sum

/-- Specification of the scanning loop of `calc_l90`: starting from accumulator
`acc` on which the threshold is not yet reached, it returns the offset of the first
prefix of `l` whose sum (on top of `acc`) reaches the threshold. -/
theorem l90Go_spec (total : Nat) (l : List Nat) :
    ∀ acc k, 9 * total ≤ 10 * (acc + l.sum) → ¬ 9 * total ≤ 10 * acc →
    ∃ i, l90Go total acc k l = k + i ∧ 1 ≤ i ∧ i ≤ l.length ∧
      9 * total ≤ 10 * (acc + (l.take i).sum) ∧
      ∀ j < i, ¬ 9 * total ≤ 10 * (acc + (l.take j).sum) := by
  induction l with
  | nil =>
    intro acc k h hn
    exact absurd (by simpa using h) hn
  | cons x rest ih =>
    intro acc k h hn
    by_cases hx : 9 * total ≤ 10 * (acc + x)
    · refine ⟨1, by simp [l90Go, hx], Nat.le_refl 1, by simp, by simpa using hx, ?_⟩
      intro j hj
      interval_cases j
      simpa using hn
    · have h' : 9 * total ≤ 10 * ((acc + x) + rest.sum) := by
        rw [List.sum_cons] at h
        omega
      obtain ⟨i, hEq, h1, hle, hP, hmin⟩ := ih (acc + x) (k + 1) h' hx
      refine ⟨i + 1, ?_, by omega, by simp; omega, ?_, ?_⟩
      · rw [show l90Go total acc k (x :: rest) = l90Go total (acc + x) (k + 1) rest by
          simp [l90Go, hx]]
        omega
      · rw [List.take_succ_cons, List.sum_cons, ← Nat.add_assoc]
        exact hP
      · intro j hj
        match j with
        | 0 => simpa using hn
        | j' + 1 =>
          have := hmin j' (by omega)
          rw [List.take_succ_cons, List.sum_cons, ← Nat.add_assoc]
          exact this

/-- C2: for every non-empty list of (positive) contig lengths, `calc_l90` returns the
smallest `k` such that the sum of the `k` largest lengths reaches 90% of the total
length (threshold reached with ≥, not >); and the spec's two worked examples:
lengths {800,100,90,7,3} give L90 = 2, lengths {800,90,90,17,3} give L90 = 3. -/
theorem calc_l90_least (sizes : List Nat) (hne : sizes ≠ [])
    (hpos : ∀ x ∈ sizes, 0 < x) :
    (9 * sizes.sum ≤ 10 * sumTop sizes (calc_l90 sizes) ∧
      ∀ j < calc_l90 sizes, ¬ 9 * sizes.sum ≤ 10 * sumTop sizes j) ∧
    calc_l90 [800, 100, 90, 7, 3] = 2 ∧ calc_l90 [800, 90, 90, 17, 3] = 3 := by
  refine ⟨?_, by decide, by decide⟩
  have hsum : (sortDesc sizes).sum = sizes.sum :=
    (List.perm_insertionSort geR sizes).sum_eq
  have htot : 0 < sizes.sum := by
    match sizes, hne with
    | x :: rest, _ =>
      have := hpos x (List.mem_cons_self x rest)
      rw [List.sum_cons]
      omega
  obtain ⟨i, hEq, _h1, _hle, hP, hmin⟩ :=
    l90Go_spec sizes.sum (sortDesc sizes) 0 0 (by rw [hsum]; omega) (by omega)
  have hcalc : calc_l90 sizes = i := by
    rw [calc_l90, hEq]
    omega
  constructor
  · rw [hcalc, sumTop]
    simpa using hP
  · intro j hj
    rw [hcalc] at hj
    have := hmin j hj
    rw [sumTop]
    simpa using this

/-- Witness for `calc_l90_least` at the spec's first worked example. -/
theorem calc_l90_least_witness :
    (9 * ([800, 100, 90, 7, 3] : List Nat).sum ≤
        10 * sumTop [800, 100, 90, 7, 3] (calc_l90 [800, 100, 90, 7, 3]) ∧
      ∀ j < calc_l90 [800, 100, 90, 7, 3],
        ¬ 9 * ([800, 100, 90, 7, 3] : List Nat).sum ≤ 10 * sumTop [800, 100, 90, 7, 3] j) ∧
    calc_l90 [800, 100, 90, 7, 3] = 2 ∧ calc_l90 [800, 90, 90, 17, 3] = 3 :=
  calc_l90_least [800, 100, 90, 7, 3] (by decide) (by decide)

/-- Modelled from the spec (§4.3): `rename_all_genomes` of
genome_seq_functions.py is absent from the available sources (only its unit test,
test_genome_func.py lines 41-75, is present).  A genome entering the renamer carries
its original identifier (abstracted to a numeric id: it is only used as the key of
the genomes dict and, per §4.3/§9, as the mandated stable final tie-break), its
`<species>.<date>` name, its genome size, contig count and L90. -/
structure Genome where
  orig : Nat
  name : String
  gsize : Nat
  nbcont : Nat
  l90 : Nat
deriving DecidableEq, Repr

/-- Species prefix of a genome: the first 4 characters of its `<species>.<date>`
name (the unit test groups SAEN.1113/SAEN.1114/SAEN.1115 into one numbering). -/
def speciesOf (g : Genome) : List Char := g.name.data.take 4

/-- Quality order used for renaming (spec §4.3): ascending L90 first, then ascending
contig count, and the original identifier as the mandated stable final tie-break. -/
def keyLe (a b : Genome) : Prop :=
  a.l90 < b.l90 ∨
    (a.l90 = b.l90 ∧ (a.nbcont < b.nbcont ∨ (a.nbcont = b.nbcont ∧ a.orig ≤ b.orig)))

instance : DecidableRel keyLe := fun a b => by
  unfold keyLe
  infer_instance

instance : IsTotal Genome keyLe := ⟨by
  intro a b
  unfold keyLe
  omega⟩

instance : IsTrans Genome keyLe := ⟨by
  intro a b c
  unfold keyLe
  omega⟩

/-- Genomes of one species group (same 4-character species prefix). -/
def speciesGroup (gs : List Genome) (sp : List Char) : List Genome :=
  gs.filter (fun g => decide (speciesOf g = sp))

/-- Species group sorted by the quality order. -/
def sortedGroup (gs : List Genome) (sp : List Char) : List Genome :=
  List.insertionSort keyLe (speciesGroup gs sp)

/-- Strain number assigned by the renamer: the 1-based rank of the genome inside its
quality-sorted species group. -/
def strainNum (gs : List Genome) (g : Genome) : Nat :=
  (sortedGroup gs (speciesOf g)).indexOf g + 1

/-- Zero-padding of a strain number to 5 digits. -/
def pad5 (n : Nat) : String :=
  let s := toString n
  String.mk (List.replicate (5 - s.length) '0') ++ s

/-- Final standardized identifier `<species>.<date>.<strain-number>`. -/
def finalId (gs : List Genome) (g : Genome) : String :=
  g.name ++ "." ++ pad5 (strainNum gs g)

/-- Strict rank comparison inside a species group: a genome that the quality order
does not place after another one (and differs from it) receives a strictly smaller
strain number. -/
theorem strainNum_lt_of_not_keyLe {gs : List Genome} {g₁ g₂ : Genome}
    (h₁ : g₁ ∈ gs) (h₂ : g₂ ∈ gs) (hsp : speciesOf g₁ = speciesOf g₂)
    (hne : g₁ ≠ g₂) (hnk : ¬ keyLe g₂ g₁) :
    strainNum gs g₁ < strainNum gs g₂ := by
  have hm₁ : g₁ ∈ sortedGroup gs (speciesOf g₁) := by
    rw [sortedGroup, List.mem_insertionSort]
    exact List.mem_filter.2 ⟨h₁, by simp⟩
  have hm₂ : g₂ ∈ sortedGroup gs (speciesOf g₁) := by
    rw [sortedGroup, List.mem_insertionSort]
    exact List.mem_filter.2 ⟨h₂, by simp [hsp]⟩
  have hsorted : (sortedGroup gs (speciesOf g₁)).Sorted keyLe :=
    List.sorted_insertionSort keyLe (speciesGroup gs (speciesOf g₁))
  have hi : (sortedGroup gs (speciesOf g₁)).indexOf g₁ <
      (sortedGroup gs (speciesOf g₁)).length := List.indexOf_lt_length.2 hm₁
  have hj : (sortedGroup gs (speciesOf g₁)).indexOf g₂ <
      (sortedGroup gs (speciesOf g₁)).length := List.indexOf_lt_length.2 hm₂
  have hgi : (sortedGroup gs (speciesOf g₁)).get
      ⟨(sortedGroup gs (speciesOf g₁)).indexOf g₁, hi⟩ = g₁ := List.indexOf_get hi
  have hgj : (sortedGroup gs (speciesOf g₁)).get
      ⟨(sortedGroup gs (speciesOf g₁)).indexOf g₂, hj⟩ = g₂ := List.indexOf_get hj
  have hij : (sortedGroup gs (speciesOf g₁)).indexOf g₁ <
      (sortedGroup gs (speciesOf g₁)).indexOf g₂ := by
    rcases Nat.lt_trichotomy ((sortedGroup gs (speciesOf g₁)).indexOf g₁)
        ((sortedGroup gs (speciesOf g₁)).indexOf g₂) with h | h | h
    · exact h
    · exact absurd (by
        rw [← hgi, ← hgj]
        exact congrArg (sortedGroup gs (speciesOf g₁)).get (Fin.ext h)) hne
    · exact absurd (by
        have := hsorted.rel_get_of_lt (a := ⟨_, hj⟩) (b := ⟨_, hi⟩) h
        rwa [hgi, hgj] at this) hnk
  rw [strainNum, strainNum, ← hsp]
  omega

/-- C3 as stated is false: within a species group, two genomes tied on both L90 and
contig count have lexicographically equal (hence ≤) quality pairs, yet they must
receive distinct strain numbers, so the claimed implication
`pair(A) ≤lex pair(B) → strain(A) ≤ strain(B)` fails on a tie.  Concretely, two
SAEN.1113 genomes with (L90, nbcont) = (2, 4) and original ids 2 and 1: the genome
with original id 2 is ranked second, yet the claim instance demands rank ≤ 1. -/
theorem rename_pair_le_counterexample :
    ¬ (∀ (gs : List Genome), ∀ g₁ ∈ gs, ∀ g₂ ∈ gs, speciesOf g₁ = speciesOf g₂ →
        (g₁.l90 < g₂.l90 ∨ (g₁.l90 = g₂.l90 ∧ g₁.nbcont ≤ g₂.nbcont)) →
        strainNum gs g₁ ≤ strainNum gs g₂) := by
  intro hcl
  have h := hcl [⟨2, "SAEN.1113", 51, 4, 2⟩, ⟨1, "SAEN.1113", 51, 4, 2⟩]
      ⟨2, "SAEN.1113", 51, 4, 2⟩ (by decide) ⟨1, "SAEN.1113", 51, 4, 2⟩ (by decide)
      (by decide) (by decide)
  revert h
  decide

/-- C3 amended: within a species group, a genome whose (L90, contig count) pair is
lexicographically strictly smaller than another's receives a strain number that is
no larger (in fact strictly smaller). -/
theorem rename_quality_mono (gs : List Genome) (g₁ g₂ : Genome)
    (h₁ : g₁ ∈ gs) (h₂ : g₂ ∈ gs) (hsp : speciesOf g₁ = speciesOf g₂)
    (hlt : g₁.l90 < g₂.l90 ∨ (g₁.l90 = g₂.l90 ∧ g₁.nbcont < g₂.nbcont)) :
    strainNum gs g₁ ≤ strainNum gs g₂ :=
  Nat.le_of_lt (strainNum_lt_of_not_keyLe h₁ h₂ hsp
    (fun he => by rw [he] at hlt; omega)
    (by unfold keyLe; omega))

/-- Witness for `rename_quality_mono`: two ESCO genomes with L90 1 and 2. -/
theorem rename_quality_mono_witness :
    strainNum [⟨1, "ESCO.0416", 70, 4, 1⟩, ⟨2, "ESCO.0216", 114, 5, 2⟩]
        ⟨1, "ESCO.0416", 70, 4, 1⟩ ≤
      strainNum [⟨1, "ESCO.0416", 70, 4, 1⟩, ⟨2, "ESCO.0216", 114, 5, 2⟩]
        ⟨2, "ESCO.0216", 114, 5, 2⟩ :=
  rename_quality_mono _ _ _ (by decide) (by decide) (by decide) (by decide)

/-- Sorted lists that are permutations of each other are equal, provided the order
is antisymmetric on their members. -/
theorem sorted_perm_eq {α : Type} {r : α → α → Prop} :
    ∀ {l₁ l₂ : List α}, (∀ a ∈ l₁, ∀ b ∈ l₁, r a b → r b a → a = b) →
      l₁.Perm l₂ → l₁.Sorted r → l₂.Sorted r → l₁ = l₂ := by
  intro l₁
  induction l₁ with
  | nil =>
    intro l₂ _ hp _ _
    exact hp.nil_eq
  | cons a t₁ ih =>
    intro l₂ hanti hp hs₁ hs₂
    match l₂ with
    | [] => exact absurd hp.symm.nil_eq (by simp)
    | b :: t₂ =>
      have hab : a = b := by
        by_cases heq : a = b
        · exact heq
        · have hbm : b ∈ a :: t₁ := hp.symm.subset (List.mem_cons_self b t₂)
          have ham : a ∈ b :: t₂ := hp.subset (List.mem_cons_self a t₁)
          have hbt : b ∈ t₁ := by
            rcases List.mem_cons.1 hbm with h | h
            · exact absurd h.symm heq
            · exact h
          have hat : a ∈ t₂ := by
            rcases List.mem_cons.1 ham with h | h
            · exact absurd h heq
            · exact h
          exact hanti a (List.mem_cons_self a t₁) b hbm
            (List.rel_of_sorted_cons hs₁ b hbt) (List.rel_of_sorted_cons hs₂ a hat)
      subst hab
      have ht : t₁ = t₂ := ih
        (fun x hx y hy => hanti x (List.mem_cons_of_mem a hx) y (List.mem_cons_of_mem a hy))
        hp.cons_inv hs₁.of_cons hs₂.of_cons
      rw [ht]

/-- C6: renaming is deterministic.  First, the final identifier of every genome is
invariant under any reordering of the input dict (two runs that materialize the kept
set in different iteration orders agree on every assignment), provided the original
identifiers are pairwise distinct, as dict keys are.  Second, the relative order of
genomes tied on both L90 and contig count is fixed by the stable final tie-break on
the original identifier: the smaller original identifier gets the smaller strain
number. -/
theorem rename_deterministic :
    (∀ (gs₁ gs₂ : List Genome), gs₁.Perm gs₂ → (gs₁.map Genome.orig).Nodup →
        ∀ g ∈ gs₁, finalId gs₁ g = finalId gs₂ g) ∧
    (∀ (gs : List Genome), ∀ g₁ ∈ gs, ∀ g₂ ∈ gs, speciesOf g₁ = speciesOf g₂ →
        g₁.l90 = g₂.l90 → g₁.nbcont = g₂.nbcont → g₁.orig < g₂.orig →
        strainNum gs g₁ < strainNum gs g₂) := by
  constructor
  · intro gs₁ gs₂ hp hnd g _hg
    have hgroup : ∀ sp, sortedGroup gs₁ sp = sortedGroup gs₂ sp := by
      intro sp
      have hgp : (speciesGroup gs₁ sp).Perm (speciesGroup gs₂ sp) :=
        hp.filter (fun g => decide (speciesOf g = sp))
      have hperm : (sortedGroup gs₁ sp).Perm (sortedGroup gs₂ sp) :=
        ((List.perm_insertionSort keyLe (speciesGroup gs₁ sp)).trans hgp).trans
          (List.perm_insertionSort keyLe (speciesGroup gs₂ sp)).symm
      refine sorted_perm_eq ?_ hperm
        (List.sorted_insertionSort keyLe (speciesGroup gs₁ sp))
        (List.sorted_insertionSort keyLe (speciesGroup gs₂ sp))
      intro a ha b hb hab hba
      have ha' : a ∈ gs₁ :=
        (List.mem_filter.1 ((List.mem_insertionSort keyLe).1 ha)).1
      have hb' : b ∈ gs₁ :=
        (List.mem_filter.1 ((List.mem_insertionSort keyLe).1 hb)).1
      have horig : a.orig = b.orig := by
        unfold keyLe at hab hba
        omega
      exact List.inj_on_of_nodup_map hnd ha' hb' horig
    rw [finalId, finalId, strainNum, strainNum, hgroup]
  · intro gs g₁ h₁ g₂ h₂ hsp hl90 hnb horig
    exact strainNum_lt_of_not_keyLe h₁ h₂ hsp
      (fun he => by rw [he] at horig; omega)
      (by unfold keyLe; omega)

/-- Witness for `rename_deterministic` at concrete inputs: a two-element kept set
given in both orders, and a pair of genomes tied on both keys. -/
theorem rename_deterministic_witness :
    finalId [⟨1, "SAEN.1115", 106, 3, 1⟩, ⟨2, "SAEN.1113", 51, 4, 2⟩]
        ⟨1, "SAEN.1115", 106, 3, 1⟩ =
      finalId [⟨2, "SAEN.1113", 51, 4, 2⟩, ⟨1, "SAEN.1115", 106, 3, 1⟩]
        ⟨1, "SAEN.1115", 106, 3, 1⟩ ∧
    strainNum [⟨1, "SAEN.1113", 51, 4, 2⟩, ⟨2, "SAEN.1113", 51, 4, 2⟩]
        ⟨1, "SAEN.1113", 51, 4, 2⟩ <
      strainNum [⟨1, "SAEN.1113", 51, 4, 2⟩, ⟨2, "SAEN.1113", 51, 4, 2⟩]
        ⟨2, "SAEN.1113", 51, 4, 2⟩ :=
  ⟨rename_deterministic.1 _ _ (by decide) (by decide) _ (by decide),
   rename_deterministic.2 _ _ (by decide) _ (by decide) (by decide) rfl rfl
     (by decide)⟩

/-- Association-list lookup with decidable equality (embedding of Python dict
lookup on string keys). -/
def lookupA {α β : Type} [DecidableEq α] : List (α × β) → α → Option β
  | [], _ => none
  | (k, v) :: rest, h => if k = h then some v else lookupA rest h

/-- One feature read from a prodigal output file: the original contig header it
references, its coordinates, and its strand. -/
structure PFeature where
  header : String
  start : Nat
  stop : Nat
  strandD : Bool
deriving DecidableEq, Repr

/-- One normalized gene record: the renamed contig it belongs to, plus the feature
data. -/
structure GeneRec where
  contig : String
  start : Nat
  stop : Nat
  strandD : Bool
deriving DecidableEq, Repr

/-- Error message reported for a feature whose contig reference is unknown, naming
the unresolved reference and the source file (as asserted by
test_format_prodigal.py lines 108-109). -/
def contigErrMsg (header gfile : String) : String :=
  header ++ " found in " ++ gfile ++ " does not exist"

/-- Modelled from the spec (§4.4): `format_prodigal.create_gene_lst` is absent from
the available sources (only its unit tests, test_format_prodigal.py, are present).
The parser walks the features of the annotator output file `gfile` in order,
resolving each contig reference through the original-header-to-contig mapping
`contigs`; an unresolved reference is a hard failure for the whole genome — the
parser returns an error naming the reference and the file, and produces no gene
records at all. -/
def create_gene_lst (contigs : List (String × String)) (gfile : String) :
    List PFeature → Except String (List GeneRec)
  | [] => Except.ok []
  | f :: rest =>
    match lookupA contigs f.header with
    | none => Except.error (contigErrMsg f.header gfile)
    | some cname =>
      match create_gene_lst contigs gfile rest with
      | Except.ok recs =>
          Except.ok ({ contig := cname, start := f.start, stop := f.stop,
                       strandD := f.strandD } :: recs)
      | Except.error e => Except.error e

/-- C5: if any feature of the annotator output references a contig absent from the
original-header-to-contig mapping, the parser fails for the entire genome: it
returns an error naming an unresolved reference and the source file, and never
returns a (partial) list of gene records. -/
theorem parser_rejects_unknown_contig (contigs : List (String × String))
    (gfile : String) (features : List PFeature)
    (hbad : ∃ f ∈ features, lookupA contigs f.header = none) :
    (∃ f ∈ features, lookupA contigs f.header = none ∧
        create_gene_lst contigs gfile features =
          Except.error (contigErrMsg f.header gfile)) ∧
    ∀ recs, create_gene_lst contigs gfile features ≠ Except.ok recs := by
  induction features with
  | nil => simp at hbad
  | cons f rest ih =>
    cases hf : lookupA contigs f.header with
    | none =>
      refine ⟨⟨f, List.mem_cons_self f rest, hf, by simp [create_gene_lst, hf]⟩, ?_⟩
      intro recs
      simp [create_gene_lst, hf]
    | some cname =>
      have hbad' : ∃ g ∈ rest, lookupA contigs g.header = none := by
        rcases hbad with ⟨g, hg, hgl⟩
        rcases List.mem_cons.1 hg with rfl | hg'
        · rw [hf] at hgl
          exact absurd hgl (by simp)
        · exact ⟨g, hg', hgl⟩
      obtain ⟨⟨g, hg, hgl, herr⟩, hnok⟩ := ih hbad'
      refine ⟨⟨g, List.mem_cons_of_mem f hg, hgl, ?_⟩, ?_⟩
      · simp only [create_gene_lst, hf, herr]
      · intro recs
        simp only [create_gene_lst, hf, herr]
        simp


/-- Witness for `parser_rejects_unknown_contig`: the unit-test scenario, where the
mapping holds key "my_contig" but the file references "my contig". -/
theorem parser_rejects_unknown_contig_witness :
    (∃ f ∈ [({ header := "my contig", start := 1, stop := 9,
               strandD := true } : PFeature)],
        lookupA [("my_contig", "test.0417.00002.0004")] f.header = none ∧
        create_gene_lst [("my_contig", "test.0417.00002.0004")]
            "prodigal_out_for_test.faa"
            [({ header := "my contig", start := 1, stop := 9,
                strandD := true } : PFeature)] =
          Except.error (contigErrMsg f.header "prodigal_out_for_test.faa")) ∧
    ∀ recs, create_gene_lst [("my_contig", "test.0417.00002.0004")]
        "prodigal_out_for_test.faa"
        [({ header := "my contig", start := 1, stop := 9,
            strandD := true } : PFeature)] ≠ Except.ok recs :=
  parser_rejects_unknown_contig _ _ _
    ⟨{ header := "my contig", start := 1, stop := 9, strandD := true },
      by decide, by decide⟩

/-- One normalized gene record entering the formatting step: its locus tag, and the
protein translation and nucleotide sequence when the annotator produced them. -/
structure FGene where
  tag : String
  prot : Option String
  nuc : Option String
deriving DecidableEq, Repr

/-- The four coupled artifact files produced per genome. -/
inductive FileKind where
  | prt
  | gen
  | lst
  | rep
deriving DecidableEq, Repr

/-- Protein-sequence artifact: one entry per gene, in input order; fails if any gene
lacks its translation. -/
def mkPrt : List FGene → Option (List (String × String))
  | [] => some []
  | g :: rest =>
    match g.prot, mkPrt rest with
    | some p, some out => some ((g.tag, p) :: out)
    | _, _ => none

/-- Nucleotide gene-sequence artifact: one entry per gene, in input order; fails if
any gene lacks its nucleotide sequence. -/
def mkGen : List FGene → Option (List (String × String))
  | [] => some []
  | g :: rest =>
    match g.nuc, mkGen rest with
    | some s, some out => some ((g.tag, s) :: out)
    | _, _ => none

/-- Gene-location table artifact: the locus tags in input order. -/
def mkLst (genes : List FGene) : List String := genes.map (fun g => g.tag)

/-- Modelled from the spec (§4.5): the per-genome formatting driver of
general_format_functions.py is absent from the available sources.  It emits the
four artifacts (protein sequences, nucleotide gene sequences, gene-location table,
replicon sequences) for one genome; a failure while producing any one of them
removes every partially written file, leaving nothing on disk for that genome. -/
def formatGenome (genes : List FGene) (replicons : List String) :
    Option (List (FileKind × List String)) :=
  match mkPrt genes, mkGen genes with
  | some ps, some ns =>
      some [(FileKind.lst, mkLst genes),
            (FileKind.gen, ns.map (fun e => e.1)),
            (FileKind.prt, ps.map (fun e => e.1)),
            (FileKind.rep, replicons)]
  | _, _ => none

/-- Files left on disk for one genome after the formatting step. -/
def diskFiles (genes : List FGene) (replicons : List String) :
    List (FileKind × List String) :=
  (formatGenome genes replicons).getD []

/-- Tags listed by a successful protein or nucleotide artifact are exactly the gene
tags, in order. -/
theorem mkPrt_tags :
    ∀ (genes : List FGene),
      (∀ ps, mkPrt genes = some ps → ps.map (fun e => e.1) = mkLst genes) ∧
      (∀ ns, mkGen genes = some ns → ns.map (fun e => e.1) = mkLst genes) := by
  intro genes
  induction genes with
  | nil =>
    constructor
    · intro ps hps
      simp [mkPrt] at hps
      simp [← hps, mkLst]
    · intro ns hns
      simp [mkGen] at hns
      simp [← hns, mkLst]
  | cons g rest ih =>
    constructor
    · intro ps hps
      match hgp : g.prot, hrest : mkPrt rest with
      | some p, some out =>
        rw [mkPrt, hgp, hrest] at hps
        cases hps
        simp [mkLst, ih.1 out hrest]
      | some p, none => rw [mkPrt, hgp, hrest] at hps; cases hps
      | none, some out => rw [mkPrt, hgp, hrest] at hps; cases hps
      | none, none => rw [mkPrt, hgp, hrest] at hps; cases hps
    · intro ns hns
      match hgp : g.nuc, hrest : mkGen rest with
      | some s, some out =>
        rw [mkGen, hgp, hrest] at hns
        cases hns
        simp [mkLst, ih.2 out hrest]
      | some s, none => rw [mkGen, hgp, hrest] at hns; cases hns
      | none, some out => rw [mkGen, hgp, hrest] at hns; cases hns
      | none, none => rw [mkGen, hgp, hrest] at hns; cases hns

/-- C8: for every genome, formatting leaves either no file at all or all four files
on disk — never exactly 3 of 4 — and when the four files exist, the gene-location
table, the protein artifact and the nucleotide artifact list the same genes with the
same identifiers in the same relative order. -/
theorem formatter_atomic (genes : List FGene) (replicons : List String) :
    ((diskFiles genes replicons).length = 0 ∨
      (diskFiles genes replicons).length = 4) ∧
    (diskFiles genes replicons).length ≠ 3 ∧
    (∀ files, formatGenome genes replicons = some files →
      files = [(FileKind.lst, mkLst genes),
               (FileKind.gen, mkLst genes),
               (FileKind.prt, mkLst genes),
               (FileKind.rep, replicons)]) := by
  match hp : mkPrt genes, hn : mkGen genes with
  | some ps, some ns =>
    have h1 : ps.map (fun e => e.1) = mkLst genes := (mkPrt_tags genes).1 ps hp
    have h2 : ns.map (fun e => e.1) = mkLst genes := (mkPrt_tags genes).2 ns hn
    refine ⟨Or.inr ?_, ?_, ?_⟩
    · simp [diskFiles, formatGenome, hp, hn]
    · simp [diskFiles, formatGenome, hp, hn]
    · intro files hf
      rw [formatGenome, hp, hn] at hf
      cases hf
      rw [h1, h2]
  | some ps, none =>
    refine ⟨Or.inl ?_, ?_, ?_⟩
    · simp [diskFiles, formatGenome, hp, hn]
    · simp [diskFiles, formatGenome, hp, hn]
    · intro files hf
      rw [formatGenome, hp, hn] at hf
      cases hf
  | none, some ns =>
    refine ⟨Or.inl ?_, ?_, ?_⟩
    · simp [diskFiles, formatGenome, hp, hn]
    · simp [diskFiles, formatGenome, hp, hn]
    · intro files hf
      rw [formatGenome, hp, hn] at hf
      cases hf
  | none, none =>
    refine ⟨Or.inl ?_, ?_, ?_⟩
    · simp [diskFiles, formatGenome, hp, hn]
    · simp [diskFiles, formatGenome, hp, hn]
    · intro files hf
      rw [formatGenome, hp, hn] at hf
      cases hf

/-- Witness for `formatter_atomic` at a concrete genome with one complete gene and
one with a missing translation. -/
theorem formatter_atomic_witness :
    ((diskFiles [⟨"ESCO.1116.00001_00001", some "MKV", some "ATG"⟩] ["c1"]).length = 0 ∨
      (diskFiles [⟨"ESCO.1116.00001_00001", some "MKV", some "ATG"⟩] ["c1"]).length = 4) ∧
    (diskFiles [⟨"ESCO.1116.00001_00001", some "MKV", some "ATG"⟩] ["c1"]).length ≠ 3 ∧
    ((diskFiles [⟨"ESCO.1116.00001_00002", none, some "ATG"⟩] ["c1"]).length = 0 ∨
      (diskFiles [⟨"ESCO.1116.00001_00002", none, some "ATG"⟩] ["c1"]).length = 4) :=
  ⟨(formatter_atomic [⟨"ESCO.1116.00001_00001", some "MKV", some "ATG"⟩] ["c1"]).1,
   (formatter_atomic [⟨"ESCO.1116.00001_00001", some "MKV", some "ATG"⟩] ["c1"]).2.1,
   (formatter_atomic [⟨"ESCO.1116.00001_00002", none, some "ATG"⟩] ["c1"]).1⟩

/-- Number of leading ambiguous bases ('N') of a sequence. -/
def countLead (s : List Char) : Nat := (s.takeWhile (fun c => c = 'N')).length

/-- Sequence with its leading ambiguous bases removed. -/
def dropLead (s : List Char) : List Char := s.dropWhile (fun c => c = 'N')

/-- Modelled from the spec (§4.1): the contig-splitting code of
genome_seq_functions.py (cut a sequence at each maximal run of at least `n`
ambiguous bases) is absent from the available sources.  `splitAux` scans the
sequence from the right; the head fragment of its result may still begin with a
pending run of ambiguous bases whose maximality is not yet known.  When a
non-ambiguous character is read, the pending run of the head fragment is resolved:
a run of length at least `n` is a separator (cut immediately before the run, the
remainder after the run becomes its own fragment), a shorter run is ordinary
sequence. -/
def splitAux (n : Nat) : List Char → List (List Char)
  | [] => [[]]
  | c :: rest =>
    match splitAux n rest with
    | [] => []
    | f :: fs =>
      if c = 'N' then (c :: f) :: fs
      else if n ≤ countLead f then [c] :: dropLead f :: fs
      else (c :: f) :: fs

/-- Resolve the still-pending leading run of the head fragment once the whole
sequence has been scanned. -/
def finalizeSplit (n : Nat) : List (List Char) → List (List Char)
  | [] => []
  | f :: fs => if n ≤ countLead f then dropLead f :: fs else f :: fs

/-- Split one contig at each maximal run of at least `n` ambiguous bases,
discarding empty fragments (spec §4.1). -/
def splitContig (n : Nat) (s : List Char) : List (List Char) :=
  (finalizeSplit n (splitAux n s)).filter (fun f => !f.isEmpty)

/-- Split every contig of a genome; the fragments replace the contig in order. -/
def splitGenome (n : Nat) (contigs : List (List Char)) : List (List Char) :=
  (contigs.map (splitContig n)).flatten

/-- Absence of any qualifying run: no block of `n` consecutive ambiguous bases
occurs in the sequence. -/
def noLongRun (n : Nat) (s : List Char) : Prop :=
  ¬ List.replicate n 'N' <:+: s

theorem noLongRun_nil {n : Nat} (hn : 1 ≤ n) : noLongRun n [] := by
  intro h
  rw [List.infix_nil] at h
  have := congrArg List.length h
  simp at this
  omega

theorem noLongRun_of_cons {n : Nat} {c : Char} {f : List Char}
    (h : noLongRun n (c :: f)) : noLongRun n f :=
  fun hin => h (List.infix_cons_iff.2 (Or.inr hin))

theorem noLongRun_cons {n : Nat} (hn : 1 ≤ n) {c : Char} (hc : c ≠ 'N')
    {f : List Char} (hf : noLongRun n f) : noLongRun n (c :: f) := by
  intro h
  rcases List.infix_cons_iff.1 h with hpre | hinf
  · match n, hn with
    | m + 1, _ =>
      rw [List.replicate_succ] at hpre
      exact hc ((List.cons_prefix_cons.1 hpre).1.symm)
  · exact hf hinf

theorem not_replicate_pre :
    ∀ (k n : Nat) (f : List Char), k < n →
      (f = [] ∨ ∃ c rest, f = c :: rest ∧ c ≠ 'N') →
      ¬ List.replicate n 'N' <+: List.replicate k 'N' ++ f := by
  intro k
  induction k with
  | zero =>
    intro n f hk hf hpre
    rw [List.replicate_zero, List.nil_append] at hpre
    match n, hk with
    | m + 1, _ =>
      rw [List.replicate_succ] at hpre
      rcases hf with rfl | ⟨c, rest, rfl, hc⟩
      · rw [List.prefix_nil] at hpre
        cases hpre
      · exact hc ((List.cons_prefix_cons.1 hpre).1.symm)
  | succ k ih =>
    intro n f hk hf hpre
    match n, hk with
    | m + 1, hk =>
      rw [List.replicate_succ, List.replicate_succ, List.cons_append,
        List.cons_prefix_cons] at hpre
      exact ih m f (by omega) hf hpre.2

theorem takeWhile_N_eq (s : List Char) :
    s.takeWhile (fun c => c = 'N') = List.replicate (countLead s) 'N' := by
  rw [List.eq_replicate_iff]
  refine ⟨rfl, fun b hb => ?_⟩
  have := List.mem_takeWhile_imp hb
  simpa using this

theorem replicate_countLead_append (s : List Char) :
    List.replicate (countLead s) 'N' ++ dropLead s = s := by
  rw [← takeWhile_N_eq, dropLead]
  exact List.takeWhile_append_dropWhile _ _

theorem dropLead_shape (s : List Char) :
    dropLead s = [] ∨ ∃ c rest, dropLead s = c :: rest ∧ c ≠ 'N' := by
  induction s with
  | nil => exact Or.inl rfl
  | cons a t ih =>
    by_cases ha : a = 'N'
    · rw [dropLead, List.dropWhile_cons, if_pos (by simp [ha])]
      exact ih
    · rw [dropLead, List.dropWhile_cons, if_neg (by simp [ha])]
      exact Or.inr ⟨a, t, rfl, ha⟩

theorem countLead_replicate_append (k : Nat) (f : List Char)
    (hf : f = [] ∨ ∃ c rest, f = c :: rest ∧ c ≠ 'N') :
    countLead (List.replicate k 'N' ++ f) = k ∧
      dropLead (List.replicate k 'N' ++ f) = f := by
  induction k with
  | zero =>
    rw [List.replicate_zero, List.nil_append]
    rcases hf with rfl | ⟨c, rest, rfl, hc⟩
    · exact ⟨rfl, rfl⟩
    · constructor
      · rw [countLead, List.takeWhile_cons, if_neg (by simp [hc])]
        rfl
      · rw [dropLead, List.dropWhile_cons, if_neg (by simp [hc])]
  | succ k ih =>
    rw [List.replicate_succ, List.cons_append]
    have h1 : countLead ('N' :: (List.replicate k 'N' ++ f)) =
        countLead (List.replicate k 'N' ++ f) + 1 := by
      rw [countLead, countLead, List.takeWhile_cons, if_pos (by simp)]
      rfl
    have h2 : dropLead ('N' :: (List.replicate k 'N' ++ f)) =
        dropLead (List.replicate k 'N' ++ f) := by
      rw [dropLead, dropLead, List.dropWhile_cons, if_pos (by simp)]
    rw [h1, h2, ih.1, ih.2]
    exact ⟨rfl, rfl⟩

theorem noLongRun_replicate_append {n : Nat} (_hn : 1 ≤ n) :
    ∀ (k : Nat) (f : List Char), k < n →
      (f = [] ∨ ∃ c rest, f = c :: rest ∧ c ≠ 'N') → noLongRun n f →
      noLongRun n (List.replicate k 'N' ++ f) := by
  intro k
  induction k with
  | zero =>
    intro f _ _ hf
    simpa using hf
  | succ k ih =>
    intro f hk hshape hf hin
    rw [List.replicate_succ, List.cons_append] at hin
    rcases List.infix_cons_iff.1 hin with hpre | hinf
    · have := not_replicate_pre (k + 1) n f hk hshape
      rw [List.replicate_succ, List.cons_append] at this
      exact this hpre
    · exact ih f (by omega) hshape hf hinf

theorem countLead_lt_of_noLongRun {n : Nat} {g : List Char}
    (hg : noLongRun n g) : countLead g < n := by
  by_contra hle
  push_neg at hle
  apply hg
  apply List.IsPrefix.isInfix
  refine ⟨List.replicate (countLead g - n) 'N' ++ dropLead g, ?_⟩
  rw [← List.append_assoc, ← List.replicate_add]
  rw [show n + (countLead g - n) = countLead g by omega]
  exact replicate_countLead_append g

theorem splitAux_inv {n : Nat} (hn : 1 ≤ n) :
    ∀ s : List Char, ∃ f fs, splitAux n s = f :: fs ∧
      (∀ g ∈ fs, noLongRun n g) ∧ noLongRun n (dropLead f) := by
  intro s
  induction s with
  | nil =>
    exact ⟨[], [], rfl, by simp, by simpa [dropLead] using noLongRun_nil hn⟩
  | cons c rest ih =>
    obtain ⟨f, fs, hEq, hfs, hf⟩ := ih
    by_cases hc : c = 'N'
    · refine ⟨c :: f, fs, ?_, hfs, ?_⟩
      · rw [splitAux, hEq]
        simp [hc]
      · rw [hc, dropLead, List.dropWhile_cons, if_pos (by simp)]
        exact hf
    · by_cases hcount : n ≤ countLead f
      · refine ⟨[c], dropLead f :: fs, ?_, ?_, ?_⟩
        · rw [splitAux, hEq]
          simp [hc, hcount]
        · intro g hg
          rcases List.mem_cons.1 hg with rfl | hg'
          · exact hf
          · exact hfs g hg'
        · rw [dropLead, List.dropWhile_cons, if_neg (by simp [hc])]
          exact noLongRun_cons hn hc (noLongRun_nil hn)
      · have hfrun : noLongRun n f := by
          have := noLongRun_replicate_append hn (countLead f) (dropLead f)
            (by omega) (dropLead_shape f) hf
          rwa [replicate_countLead_append f] at this
        refine ⟨c :: f, fs, ?_, hfs, ?_⟩
        · rw [splitAux, hEq]
          simp [hc, hcount]
        · rw [dropLead, List.dropWhile_cons, if_neg (by simp [hc])]
          exact noLongRun_cons hn hc hfrun

theorem splitContig_mem {n : Nat} (hn : 1 ≤ n) (s : List Char) :
    ∀ g ∈ splitContig n s, g ≠ [] ∧ noLongRun n g := by
  intro g hg
  rw [splitContig] at hg
  have hmem := List.mem_filter.1 hg
  have hne : g ≠ [] := by
    have := hmem.2
    simpa [List.isEmpty_iff] using this
  refine ⟨hne, ?_⟩
  obtain ⟨f, fs, hEq, hfs, hf⟩ := splitAux_inv hn s
  rw [hEq, finalizeSplit] at hmem
  by_cases hcount : n ≤ countLead f
  · rw [if_pos hcount] at hmem
    rcases List.mem_cons.1 hmem.1 with rfl | hg'
    · exact hf
    · exact hfs g hg'
  · rw [if_neg hcount] at hmem
    rcases List.mem_cons.1 hmem.1 with rfl | hg'
    · have := noLongRun_replicate_append hn (countLead g) (dropLead g)
        (by omega) (dropLead_shape g) hf
      rwa [replicate_countLead_append g] at this
    · exact hfs g hg'

theorem splitAux_of_noLongRun {n : Nat} (_hn : 1 ≤ n) :
    ∀ g : List Char, noLongRun n g → splitAux n g = [g] := by
  intro g
  induction g with
  | nil => intro _; rfl
  | cons c g' ih =>
    intro hg
    have hg' : noLongRun n g' := noLongRun_of_cons hg
    rw [splitAux, ih hg']
    by_cases hc : c = 'N'
    · simp [hc]
    · have hcount : countLead g' < n := by
        by_contra hle
        push_neg at hle
        apply hg
        apply List.infix_cons_iff.2
        refine Or.inr (List.IsPrefix.isInfix ?_)
        refine ⟨List.replicate (countLead g' - n) 'N' ++ dropLead g', ?_⟩
        rw [← List.append_assoc, ← List.replicate_add]
        rw [show n + (countLead g' - n) = countLead g' by omega]
        exact replicate_countLead_append g'
      simp [hc, Nat.not_le.2 hcount]

theorem splitContig_of_good {n : Nat} (hn : 1 ≤ n) (g : List Char)
    (hne : g ≠ []) (hg : noLongRun n g) : splitContig n g = [g] := by
  rw [splitContig, splitAux_of_noLongRun hn g hg, finalizeSplit,
    if_neg (Nat.not_le.2 (countLead_lt_of_noLongRun hg))]
  simp [List.isEmpty_iff, hne]

theorem flatten_map_of_fixpoints {n : Nat} :
    ∀ L : List (List Char), (∀ g ∈ L, splitContig n g = [g]) →
      (L.map (splitContig n)).flatten = L := by
  intro L
  induction L with
  | nil => intro _; rfl
  | cons g L ih =>
    intro h
    rw [List.map_cons, List.flatten_cons, h g (List.mem_cons_self g L),
      ih (fun x hx => h x (List.mem_cons_of_mem g hx))]
    rfl

/-- C9: for every genome and every splitting threshold `n ≥ 1`, contig splitting at
maximal runs of at least `n` ambiguous bases is idempotent: applying the splitter a
second time with the same threshold to its own output returns exactly the same
contigs, and no qualifying run of `n` consecutive ambiguous bases remains in any
output contig. -/
theorem split_idempotent (n : Nat) (hn : 1 ≤ n) (contigs : List (List Char)) :
    splitGenome n (splitGenome n contigs) = splitGenome n contigs ∧
    ∀ g ∈ splitGenome n contigs, ¬ List.replicate n 'N' <:+: g := by
  have hmem : ∀ g ∈ splitGenome n contigs, g ≠ [] ∧ noLongRun n g := by
    intro g hg
    rw [splitGenome, List.mem_flatten] at hg
    obtain ⟨l, hl, hgl⟩ := hg
    obtain ⟨s, _, rfl⟩ := List.mem_map.1 hl
    exact splitContig_mem hn s g hgl
  constructor
  · rw [show splitGenome n (splitGenome n contigs) =
      ((splitGenome n contigs).map (splitContig n)).flatten from rfl]
    exact flatten_map_of_fixpoints (splitGenome n contigs)
      (fun g hg => splitContig_of_good hn g (hmem g hg).1 (hmem g hg).2)
  · exact fun g hg => (hmem g hg).2

/-- Witness for `split_idempotent` with threshold 2 on a small genome. -/
theorem split_idempotent_witness :
    splitGenome 2 (splitGenome 2 [['A', 'N', 'N', 'G', 'N'], ['N', 'N', 'T']]) =
      splitGenome 2 [['A', 'N', 'N', 'G', 'N'], ['N', 'N', 'T']] ∧
    ∀ g ∈ splitGenome 2 [['A', 'N', 'N', 'G', 'N'], ['N', 'N', 'T']],
      ¬ List.replicate 2 'N' <:+: g :=
  split_idempotent 2 (by decide) [['A', 'N', 'N', 'G', 'N'], ['N', 'N', 'T']]

/-- Embedding of post_align.py line 237: the first whitespace-delimited token of the
part of the header line between the first and the second '>' character
(`header.split(">")[1].split()[0]`). -/
def headerTok (h : List Char) : List Char :=
  ((((h.dropWhile (fun c => c ≠ '>')).drop 1).takeWhile (fun c => c ≠ '>')).dropWhile
      (fun c => c.isWhitespace)).takeWhile (fun c => !c.isWhitespace)

/-- Embedding of `get_genome` (post_align.py lines 221-243): return the first genome
of `all_genomes` whose name occurs as a substring of the header token
(`if genome in header`, after rebinding `header` to the token); when no genome
matches, the source logs an error and calls `sys.exit(1)`, embedded as `none`. -/
def get_genome (header : List Char) (all_genomes : List (List Char)) :
    Option (List Char) :=
  all_genomes.find? (fun g => decide (g <:+: headerTok header))

/-- State of the line loop of `read_alignments` (post_align.py lines 173-188): the
per-genome sequence lists accumulated so far (an association list in insertion
order, like the Python dict), the genome the current sequence belongs to, and the
characters of the current sequence. -/
structure RAState where
  sequences : List (List Char × List (List Char))
  genome : Option (List Char)
  seq : List Char

/-- Append a finished sequence to its genome's entry
(`sequences[genome].append(seq)`, post_align.py line 181). -/
def appendSeq : List (List Char × List (List Char)) → List Char → List Char →
    List (List Char × List (List Char))
  | [], g, s => [(g, [s])]
  | (k, v) :: rest, g, s =>
    if k = g then (k, v ++ [s]) :: rest else (k, v) :: appendSeq rest g s

/-- Flush of the pending sequence (`if genome and seq:` at post_align.py lines
180-182 and 189-190): only a non-empty pending sequence with a resolved genome is
appended, and only then is the pending sequence reset. -/
def flushState (st : RAState) : RAState :=
  match st.genome with
  | some g => if st.seq = [] then st else ⟨appendSeq st.sequences g st.seq, st.genome, []⟩
  | none => st

/-- Ensure the genome key exists (`if genome not in sequences: sequences[genome] = []`,
post_align.py lines 185-186). -/
def ensureKey (seqs : List (List Char × List (List Char))) (g : List Char) :
    List (List Char × List (List Char)) :=
  match lookupA seqs g with
  | some _ => seqs
  | none => seqs ++ [(g, [])]

/-- Line loop of `read_alignments` (post_align.py lines 176-188): a header line
(starting with '>') flushes the pending sequence and resolves its genome — an
unresolvable header terminates the whole process with `sys.exit(1)` — and any other
line extends the pending sequence. -/
def readGo (genomes : List (List Char)) : RAState → List (List Char) →
    Except Nat RAState
  | st, [] => Except.ok st
  | st, line :: rest =>
    if line.head? = some '>' then
      let st2 := flushState st
      match get_genome line genomes with
      | none => Except.error 1
      | some g => readGo genomes ⟨ensureKey st2.sequences g, some g, st2.seq⟩ rest
    else
      readGo genomes ⟨st.sequences, st.genome, st.seq ++ line⟩ rest

/-- Embedding of `read_alignments` (post_align.py lines 157-198): scan all lines of
the concatenated alignment file, then perform the final flush and the check that
every genome has the same number of sequences (`sys.exit(1)` otherwise). -/
def read_alignments (genomes : List (List Char)) (lines : List (List Char)) :
    Except Nat (List (List Char × List (List Char))) :=
  match readGo genomes ⟨[], none, []⟩ lines with
  | Except.error e => Except.error e
  | Except.ok st =>
    let seqs := (flushState st).sequences
    if (seqs.map (fun kv => kv.2.length)).dedup.length = 1 then Except.ok seqs
    else Except.error 1

/-- Once a header with no matching genome occurs among the remaining lines, the line
loop ends in exit status 1, whatever the current state. -/
theorem readGo_error (genomes : List (List Char)) :
    ∀ (lines : List (List Char)) (st : RAState),
      (∃ l ∈ lines, l.head? = some '>' ∧ get_genome l genomes = none) →
      readGo genomes st lines = Except.error 1 := by
  intro lines
  induction lines with
  | nil =>
    intro st h
    simp at h
  | cons line rest ih =>
    intro st h
    by_cases hh : line.head? = some '>'
    · cases hg : get_genome line genomes with
      | none => rw [readGo, if_pos hh, hg]
      | some g =>
        rw [readGo, if_pos hh, hg]
        refine ih _ ?_
        rcases h with ⟨l, hl, hl1, hl2⟩
        rcases List.mem_cons.1 hl with rfl | hl'
        · rw [hg] at hl2
          cases hl2
        · exact ⟨l, hl', hl1, hl2⟩
    · rw [readGo, if_neg hh]
      refine ih _ ?_
      rcases h with ⟨l, hl, hl1, hl2⟩
      rcases List.mem_cons.1 hl with rfl | hl'
      · exact absurd hl1 hh
      · exact ⟨l, hl', hl1, hl2⟩

/-- C10: grouping concatenated alignments by genome.  First, `get_genome` attributes
a header to the first genome of the supplied list whose name is a substring of the
header's first whitespace-delimited token — so which genome captures a header
depends on the order of the genome list.  Second, if some header line matches no
genome name, `read_alignments` terminates the whole process with exit status 1
instead of skipping that sequence. -/
theorem header_attribution_spec :
    (∀ (header : List Char) (genomes : List (List Char)) (g : List Char),
      get_genome header genomes = some g ↔
        ∃ pre post, genomes = pre ++ g :: post ∧ g <:+: headerTok header ∧
          ∀ g' ∈ pre, ¬ g' <:+: headerTok header) ∧
    (∀ (genomes : List (List Char)) (lines : List (List Char)),
      (∃ l ∈ lines, l.head? = some '>' ∧ get_genome l genomes = none) →
      read_alignments genomes lines = Except.error 1) := by
  constructor
  · intro header genomes g
    induction genomes with
    | nil =>
      rw [get_genome]
      simp only [List.find?_nil]
      constructor
      · intro h
        cases h
      · rintro ⟨pre, post, h, -, -⟩
        have := congrArg List.length h
        simp at this
        omega
    | cons a gs ih =>
      by_cases ha : a <:+: headerTok header
      · rw [get_genome, List.find?_cons_of_pos _ (by simpa using ha)]
        constructor
        · intro h
          cases h
          exact ⟨[], gs, rfl, ha, by simp⟩
        · rintro ⟨pre, post, heq, hg, hpre⟩
          match pre, heq with
          | [], heq =>
            rw [List.nil_append] at heq
            rw [(List.cons.inj heq).1]
          | p :: pre2, heq =>
            rw [List.cons_append] at heq
            have hap : a = p := (List.cons.inj heq).1
            exact absurd ha (by rw [hap]; exact hpre p (List.mem_cons_self p pre2))
      · rw [get_genome, List.find?_cons_of_neg _ (by simpa using ha)]
        rw [show List.find? (fun g => decide (g <:+: headerTok header)) gs =
          get_genome header gs from rfl, ih]
        constructor
        · rintro ⟨pre, post, heq, hg, hpre⟩
          refine ⟨a :: pre, post, by rw [heq, List.cons_append], hg, ?_⟩
          intro g2 hg2
          rcases List.mem_cons.1 hg2 with rfl | hg2p
          · exact ha
          · exact hpre g2 hg2p
        · rintro ⟨pre, post, heq, hg, hpre⟩
          match pre, heq with
          | [], heq =>
            rw [List.nil_append] at heq
            have hag : a = g := (List.cons.inj heq).1
            exact absurd hg (by rw [← hag]; exact ha)
          | p :: pre2, heq =>
            rw [List.cons_append] at heq
            have h2 := List.cons.inj heq
            refine ⟨pre2, post, h2.2, hg, ?_⟩
            exact fun g2 hg2 => hpre g2 (List.mem_cons_of_mem p hg2)
  · intro genomes lines h
    rw [read_alignments, readGo_error genomes lines ⟨[], none, []⟩ h]

/-- Witness for `header_attribution_spec`: the header token "Z1" matches none of the
genomes "ES" and "X", so the whole grouping exits with status 1. -/
theorem header_attribution_spec_witness :
    read_alignments [['E', 'S'], ['X']]
        [['>', 'Z', '1', ' ', 'a'], ['A', 'C']] = Except.error 1 :=
  header_attribution_spec.2 [['E', 'S'], ['X']]
    [['>', 'Z', '1', ' ', 'a'], ['A', 'C']]
    ⟨['>', 'Z', '1', ' ', 'a'], by decide, by decide, by decide⟩

end PanACoTA
